import Mathlib

/-!
Shallow embedding of the `ocr_metrics` package (file `ocr_metrics/metrics.py`):
text normalization, Levenshtein edit distance, and the CER / WER metric
calculators. Text is modelled as `List Char` (a Python `str` is a sequence of
Unicode scalar values), the float results of `cer` / `wer` as exact rationals
(`ℚ`), and the `ValueError` raised on an empty reference as an `Except` error.
-/

namespace OcrMetrics

/-- Whitespace test used by Python's regex class `\s` on `str`, by `str.strip()`
and by `str.split()`: the tab/newline block, the ASCII separators 0x1C–0x1F,
space, NEL, NBSP, and the Unicode space separators. -/
def isSpace (c : Char) : Bool :=
  let n := c.toNat
  (9 ≤ n && n ≤ 13) || (28 ≤ n && n ≤ 31) || n == 32 || n == 133 || n == 160 ||
    n == 0x1680 || (0x2000 ≤ n && n ≤ 0x200A) || n == 0x2028 || n == 0x2029 ||
    n == 0x202F || n == 0x205F || n == 0x3000

/-- Membership in `string.punctuation + arabic_punctuation` from the source:
the 32 ASCII punctuation marks (code points 0x21–0x2F, 0x3A–0x40, 0x5B–0x60,
0x7B–0x7E) together with the six Arabic marks U+060C, U+061B, U+061F, U+066A,
U+06D4, U+066C. -/
def isPunct (c : Char) : Bool :=
  let n := c.toNat
  (0x21 ≤ n && n ≤ 0x2F) || (0x3A ≤ n && n ≤ 0x40) || (0x5B ≤ n && n ≤ 0x60) ||
    (0x7B ≤ n && n ≤ 0x7E) ||
    n == 0x060C || n == 0x061B || n == 0x061F || n == 0x066A ||
    n == 0x06D4 || n == 0x066C

/-- Unicode decimal-digit test: the general category Nd, which is the
character class matched by Python's regex `\d` on `str` and removed by
`re.sub(r'\d', '', ·)`. The 62 ranges below are the complete Nd category of
Unicode 14.0, the character database shipped with CPython 3.11 (660
characters: 61 ranges of ten decimal digits plus the fifty mathematical
digits U+1D7CE–U+1D7FF). -/
def isDigit (c : Char) : Bool :=
  let n := c.toNat
  (0x30 ≤ n && n ≤ 0x39) || (0x660 ≤ n && n ≤ 0x669) ||
    (0x6F0 ≤ n && n ≤ 0x6F9) || (0x7C0 ≤ n && n ≤ 0x7C9) ||
    (0x966 ≤ n && n ≤ 0x96F) || (0x9E6 ≤ n && n ≤ 0x9EF) ||
    (0xA66 ≤ n && n ≤ 0xA6F) || (0xAE6 ≤ n && n ≤ 0xAEF) ||
    (0xB66 ≤ n && n ≤ 0xB6F) || (0xBE6 ≤ n && n ≤ 0xBEF) ||
    (0xC66 ≤ n && n ≤ 0xC6F) || (0xCE6 ≤ n && n ≤ 0xCEF) ||
    (0xD66 ≤ n && n ≤ 0xD6F) || (0xDE6 ≤ n && n ≤ 0xDEF) ||
    (0xE50 ≤ n && n ≤ 0xE59) || (0xED0 ≤ n && n ≤ 0xED9) ||
    (0xF20 ≤ n && n ≤ 0xF29) || (0x1040 ≤ n && n ≤ 0x1049) ||
    (0x1090 ≤ n && n ≤ 0x1099) || (0x17E0 ≤ n && n ≤ 0x17E9) ||
    (0x1810 ≤ n && n ≤ 0x1819) || (0x1946 ≤ n && n ≤ 0x194F) ||
    (0x19D0 ≤ n && n ≤ 0x19D9) || (0x1A80 ≤ n && n ≤ 0x1A89) ||
    (0x1A90 ≤ n && n ≤ 0x1A99) || (0x1B50 ≤ n && n ≤ 0x1B59) ||
    (0x1BB0 ≤ n && n ≤ 0x1BB9) || (0x1C40 ≤ n && n ≤ 0x1C49) ||
    (0x1C50 ≤ n && n ≤ 0x1C59) || (0xA620 ≤ n && n ≤ 0xA629) ||
    (0xA8D0 ≤ n && n ≤ 0xA8D9) || (0xA900 ≤ n && n ≤ 0xA909) ||
    (0xA9D0 ≤ n && n ≤ 0xA9D9) || (0xA9F0 ≤ n && n ≤ 0xA9F9) ||
    (0xAA50 ≤ n && n ≤ 0xAA59) || (0xABF0 ≤ n && n ≤ 0xABF9) ||
    (0xFF10 ≤ n && n ≤ 0xFF19) || (0x104A0 ≤ n && n ≤ 0x104A9) ||
    (0x10D30 ≤ n && n ≤ 0x10D39) || (0x11066 ≤ n && n ≤ 0x1106F) ||
    (0x110F0 ≤ n && n ≤ 0x110F9) || (0x11136 ≤ n && n ≤ 0x1113F) ||
    (0x111D0 ≤ n && n ≤ 0x111D9) || (0x112F0 ≤ n && n ≤ 0x112F9) ||
    (0x11450 ≤ n && n ≤ 0x11459) || (0x114D0 ≤ n && n ≤ 0x114D9) ||
    (0x11650 ≤ n && n ≤ 0x11659) || (0x116C0 ≤ n && n ≤ 0x116C9) ||
    (0x11730 ≤ n && n ≤ 0x11739) || (0x118E0 ≤ n && n ≤ 0x118E9) ||
    (0x11950 ≤ n && n ≤ 0x11959) || (0x11C50 ≤ n && n ≤ 0x11C59) ||
    (0x11D50 ≤ n && n ≤ 0x11D59) || (0x11DA0 ≤ n && n ≤ 0x11DA9) ||
    (0x16A60 ≤ n && n ≤ 0x16A69) || (0x16AC0 ≤ n && n ≤ 0x16AC9) ||
    (0x16B50 ≤ n && n ≤ 0x16B59) || (0x1D7CE ≤ n && n ≤ 0x1D7FF) ||
    (0x1E140 ≤ n && n ≤ 0x1E149) || (0x1E2F0 ≤ n && n ≤ 0x1E2F9) ||
    (0x1E950 ≤ n && n ≤ 0x1E959) || (0x1FBF0 ≤ n && n ≤ 0x1FBF9)

/-- The blank character U+0020, the replacement used by `re.sub(r'\s+', ' ', ·)`. -/
def blank : Char := Char.ofNat 32

/-- One step of the source's whitespace normalization
`re.sub(r'\s+', ' ', text)`: every maximal run of whitespace characters is
replaced by a single ASCII space. -/
def collapseWs : List Char → List Char
  | [] => []
  | [c] => if isSpace c then [blank] else [c]
  | c :: d :: rest =>
    if isSpace c then
      if isSpace d then collapseWs (d :: rest)
      else blank :: collapseWs (d :: rest)
    else c :: collapseWs (d :: rest)

/-- Python `str.strip()` with no argument: remove leading and trailing
whitespace characters. -/
def strip (l : List Char) : List Char :=
  ((l.dropWhile isSpace).reverse.dropWhile isSpace).reverse

/-- Accumulator worker for `splitWs`; `acc` holds the current word reversed. -/
def splitWsAux : List Char → List Char → List (List Char)
  | acc, [] => if acc.isEmpty then [] else [acc.reverse]
  | acc, c :: cs =>
    if isSpace c then
      if acc.isEmpty then splitWsAux [] cs
      else acc.reverse :: splitWsAux [] cs
    else splitWsAux (c :: acc) cs

/-- Python `str.split()` with no argument: split on runs of whitespace,
discarding empty tokens. -/
def splitWs (l : List Char) : List (List Char) :=
  splitWsAux [] l

/-- Unicode NFC normalization (`unicodedata.normalize('NFC', ·)`), a host
runtime service external to the repository; the embedding takes it as an
explicit function parameter, and the general theorems below hold for every
choice of it. `nfcId` is the instantiation used for concrete evaluations:
every concrete string appearing in this development is ASCII, and NFC is the
identity on ASCII text (no ASCII character has a canonical decomposition and
none participates in a canonical composition). -/
def nfcId : List Char → List Char := fun s => s

/-- Embedding of `normalize_text(text, remove_punctuation, remove_numbers)`
from `ocr_metrics/metrics.py`: NFC, conditional punctuation removal via
`str.translate`, whitespace collapse plus strip, then conditional digit
removal plus strip. -/
def normalize_text (nfc : List Char → List Char) (text : List Char)
    (remove_punctuation remove_numbers : Bool) : List Char :=
  let t1 := nfc text
  let t2 := if remove_punctuation then t1.filter (fun c => !(isPunct c)) else t1
  let t3 := strip (collapseWs t2)
  if remove_numbers then strip (t3.filter (fun c => !(isDigit c))) else t3

/-- Pipeline step 2 of spec section 4.1: Unicode canonical composition. -/
def specStepNFC (nfc : List Char → List Char) (t : List Char) : List Char :=
  nfc t

/-- Pipeline step 3 of spec section 4.1: when enabled, remove every character
of the fixed ASCII punctuation set union the fixed Arabic punctuation set
(character removal, not replacement with space). -/
def specStepPunct (rp : Bool) (t : List Char) : List Char :=
  if rp then t.filter (fun c => !(isPunct c)) else t

/-- Pipeline step 4 of spec section 4.1: collapse every maximal whitespace run
into a single ASCII space, then trim leading and trailing whitespace. -/
def specStepWhitespace (t : List Char) : List Char :=
  strip (collapseWs t)

/-- Pipeline step 5 of spec section 4.1: when enabled, remove every Unicode
decimal-digit character, then re-trim leading and trailing whitespace. -/
def specStepDigits (rn : Bool) (t : List Char) : List Char :=
  if rn then strip (t.filter (fun c => !(isDigit c))) else t

/-- The normalizer as the spec words it: the four pipeline steps of section
4.1 applied in the spec's exact order. -/
def normalizeSpec (nfc : List Char → List Char) (t : List Char)
    (rp rn : Bool) : List Char :=
  specStepDigits rn (specStepWhitespace (specStepPunct rp (specStepNFC nfc t)))

/-- The error raised by `normalize_text` on a `None` input (`TypeError`). -/
inductive InputError
  | typeError
  deriving DecidableEq, Repr

/-- Entry guard of `normalize_text`: a `None` input raises `TypeError` before
any processing; any other input reaching the core is a string. In the typed
embedding the `str(·)`-conversion-failure branch is unreachable, since every
non-`None` value of the model already is a string. -/
def normalize_text_checked (nfc : List Char → List Char)
    (text : Option (List Char)) (rp rn : Bool) : Except InputError (List Char) :=
  match text with
  | none => Except.error InputError.typeError
  | some t => Except.ok (normalize_text nfc t rp rn)

/-- Inner loop of `levenshtein_distance`: given the character `x = s1[i-1]`,
the remaining part of `s2`, the corresponding slice of the previous row
`dp[i-1]` (headed by the diagonal entry `dp[i-1][j-1]`), and the entry
`dp[i][j-1]` just computed to the left, produce the entries
`dp[i][j], dp[i][j+1], ...` of the current row. -/
def buildRow {α : Type} [DecidableEq α] (x : α) :
    List α → List Nat → Nat → List Nat
  | [], _, _ => []
  | _ :: _, [], _ => []
  | y :: ys, diag :: prevRest, left =>
    let cost : Nat := if x = y then 0 else 1
    let above := prevRest.headD 0
    let cur := min (min (above + 1) (left + 1)) (diag + cost)
    cur :: buildRow x ys prevRest cur

/-- Outer loop of `levenshtein_distance`: starting from row 0 of the DP table
(`[0, 1, ..., n]`), compute the rows for the successive elements of `s1`.
Each iteration reads only the previous row, exactly as the source's loop body
does, and the final value is the last entry of the last row. -/
def levFold {α : Type} [DecidableEq α] (s2 : List α) :
    List Nat → Nat → List α → List Nat
  | prev, _, [] => prev
  | prev, i, x :: rest => levFold s2 ((i + 1) :: buildRow x s2 prev (i + 1)) (i + 1) rest

/-- Embedding of `levenshtein_distance(s1, s2)` from `ocr_metrics/metrics.py`:
the Wagner–Fischer dynamic program with base row `dp[0][j] = j`, base column
`dp[i][0] = i`, and the deletion / insertion / substitution recurrence,
returning `dp[m][n]`. -/
def levenshtein_distance {α : Type} [DecidableEq α] (s1 s2 : List α) : Nat :=
  (levFold s2 (List.range (s2.length + 1)) 0 s1).getLastD 0

/-- Reference recursion for the edit distance, used to state and prove the
algebraic properties: distance between two lists peeling from the front. -/
def lev {α : Type} [DecidableEq α] : List α → List α → Nat
  | [], t => t.length
  | s, [] => s.length
  | x :: s, y :: t =>
    min (min (lev s (y :: t) + 1) (lev (x :: s) t + 1))
      (lev s t + (if x = y then 0 else 1))
termination_by s t => s.length + t.length
decreasing_by all_goals simp_arith

/-- The Wagner–Fischer table exactly as the claims state it: base cases
`table[i][0] = i` and `table[0][j] = j`, and for `i, j ≥ 1` the minimum of
deletion, insertion, and substitution, with substitution cost 0 precisely when
`s1[i-1] = s2[j-1]`. -/
def wfTable {α : Type} [DecidableEq α] (s1 s2 : List α) : Nat → Nat → Nat
  | 0, j => j
  | i + 1, 0 => i + 1
  | i + 1, j + 1 =>
    min (min (wfTable s1 s2 i (j + 1) + 1) (wfTable s1 s2 (i + 1) j + 1))
      (wfTable s1 s2 i j + (if s1[i]? = s2[j]? then 0 else 1))
termination_by i j => (i, j)

/-- The `ValueError` raised by `cer` / `wer` when the reference is empty after
normalization but the hypothesis is not. -/
inductive MetricError
  | emptyReference
  deriving DecidableEq, Repr

/-- Embedding of `cer(reference, hypothesis, normalize, remove_punctuation,
remove_numbers)` from `ocr_metrics/metrics.py`; the Python float result is
modelled as an exact rational. -/
def cer (nfc : List Char → List Char) (reference hypothesis : List Char)
    (normalize remove_punctuation remove_numbers : Bool) : Except MetricError ℚ :=
  let ref := if normalize then
    normalize_text nfc reference remove_punctuation remove_numbers else reference
  let hyp := if normalize then
    normalize_text nfc hypothesis remove_punctuation remove_numbers else hypothesis
  let refChars := ref
  let hypChars := hyp
  if refChars.length = 0 then
    if hypChars.length = 0 then Except.ok 0
    else Except.error MetricError.emptyReference
  else
    Except.ok ((levenshtein_distance refChars hypChars : ℚ) / (refChars.length : ℚ))

/-- Embedding of `wer(reference, hypothesis, normalize, remove_punctuation,
remove_numbers)` from `ocr_metrics/metrics.py`; the Python float result is
modelled as an exact rational. -/
def wer (nfc : List Char → List Char) (reference hypothesis : List Char)
    (normalize remove_punctuation remove_numbers : Bool) : Except MetricError ℚ :=
  let ref := if normalize then
    normalize_text nfc reference remove_punctuation remove_numbers else reference
  let hyp := if normalize then
    normalize_text nfc hypothesis remove_punctuation remove_numbers else hypothesis
  let refWords := splitWs ref
  let hypWords := splitWs hyp
  if refWords.length = 0 then
    if hypWords.length = 0 then Except.ok 0
    else Except.error MetricError.emptyReference
  else
    Except.ok ((levenshtein_distance refWords hypWords : ℚ) / (refWords.length : ℚ))

/-- Equality of `Except` results is decidable componentwise. -/
instance instDecEqExcept {ε α : Type} [DecidableEq ε] [DecidableEq α] :
    DecidableEq (Except ε α) := fun x y =>
  match x, y with
  | .ok a, .ok b =>
    if h : a = b then isTrue (by rw [h]) else isFalse (by simp [h])
  | .error a, .error b =>
    if h : a = b then isTrue (by rw [h]) else isFalse (by simp [h])
  | .ok _, .error _ => isFalse (by simp)
  | .error _, .ok _ => isFalse (by simp)

/-- Proof-side description of one DP row: with `A` the reversed part of `s1`
already processed and `V` the part of `s2` already consumed, the row lists the
distances between `A` and the reversed extensions of `V` by the successive
elements still to come. -/
def rowSpec {α : Type} [DecidableEq α] (A : List α) : List α → List α → List Nat
  | V, [] => [lev A V.reverse]
  | V, y :: ys => lev A V.reverse :: rowSpec A (V ++ [y]) ys

/-- Decidable statement that a character list neither starts nor ends with a
whitespace character. -/
def noEdgeSpace (l : List Char) : Bool :=
  (match l.head? with | none => true | some c => !(isSpace c)) &&
    (match l.getLast? with | none => true | some c => !(isSpace c))

/-- Decidable statement that whitespace in a list is already in collapsed
form: every whitespace character is the ASCII blank and is not followed by
another whitespace character. -/
def wsOk : List Char → Bool
  | [] => true
  | c :: rest =>
    (!(isSpace c) || (c == blank && !(isSpace (rest.headD (Char.ofNat 65))))) &&
      wsOk rest

/-! ### Equation lemmas for the reference recursion -/

theorem lev_nil_left {α : Type} [DecidableEq α] (t : List α) :
    lev [] t = t.length := by
  rw [lev]

theorem lev_nil_right {α : Type} [DecidableEq α] (s : List α) :
    lev s [] = s.length := by
  cases s with
  | nil => rw [lev]
  | cons x s =>
    rw [lev]
    simp

theorem lev_cons_cons {α : Type} [DecidableEq α] (x : α) (s : List α) (y : α)
    (t : List α) :
    lev (x :: s) (y :: t) =
      min (min (lev s (y :: t) + 1) (lev (x :: s) t + 1))
        (lev s t + (if x = y then 0 else 1)) := by
  rw [lev]

/-! ### The implementation computes the reference recursion -/

theorem rowSpec_head_cons {α : Type} [DecidableEq α] (A V t : List α) :
    rowSpec A V t = lev A V.reverse :: (rowSpec A V t).tail := by
  cases t <;> rfl

theorem buildRow_spec {α : Type} [DecidableEq α] (x : α) (A : List α)
    (t V : List α) :
    buildRow x t (rowSpec A V t) (lev (x :: A) V.reverse) =
      (rowSpec (x :: A) V t).tail := by
  induction t generalizing V with
  | nil => rfl
  | cons y ys ih =>
    rw [rowSpec, rowSpec_head_cons A (V ++ [y]) ys, buildRow]
    have hrev : (V ++ [y]).reverse = y :: V.reverse := by
      simp
    have hcur :
        min (min (lev A (V ++ [y]).reverse + 1) (lev (x :: A) V.reverse + 1))
          (lev A V.reverse + (if x = y then 0 else 1)) =
          lev (x :: A) (V ++ [y]).reverse := by
      rw [hrev, lev_cons_cons]
    simp only [List.headD_cons]
    rw [hcur, ← rowSpec_head_cons A (V ++ [y]) ys, ih (V ++ [y])]
    conv_rhs => rw [rowSpec]
    rw [List.tail_cons, ← rowSpec_head_cons]

theorem levFold_spec {α : Type} [DecidableEq α] (s2 : List α)
    (rest A : List α) :
    levFold s2 (rowSpec A [] s2) A.length rest =
      rowSpec (rest.reverse ++ A) [] s2 := by
  induction rest generalizing A with
  | nil => rw [levFold]; simp
  | cons x r ih =>
    rw [levFold]
    have hlen : A.length + 1 = lev (x :: A) (List.reverse []) := by
      rw [List.reverse_nil, lev_nil_right, List.length_cons]
    have hrow : (A.length + 1) :: buildRow x s2 (rowSpec A [] s2) (A.length + 1) =
        rowSpec (x :: A) [] s2 := by
      rw [hlen, buildRow_spec x A s2 [], ← rowSpec_head_cons]
    rw [hrow]
    have := ih (x :: A)
    rw [List.length_cons] at this
    rw [this]
    congr 1
    simp

theorem rowSpec_nil_left {α : Type} [DecidableEq α] (t V : List α) :
    rowSpec ([] : List α) V t =
      (List.range (t.length + 1)).map (fun j => V.length + j) := by
  induction t generalizing V with
  | nil => simp [rowSpec, lev_nil_left, show List.range 1 = [0] from rfl]
  | cons y ys ih =>
    rw [rowSpec, ih (V ++ [y])]
    rw [List.length_cons, List.range_succ_eq_map (ys.length + 1),
      List.map_cons, List.map_map]
    congr 1
    · rw [lev_nil_left, List.length_reverse, Nat.add_zero]
    · apply List.map_congr_left
      intro j hj
      simp [Function.comp]
      omega

theorem rowSpec_getLastD {α : Type} [DecidableEq α] (A : List α)
    (t V : List α) (d : Nat) :
    (rowSpec A V t).getLastD d = lev A ((V ++ t).reverse) := by
  induction t generalizing V d with
  | nil => simp [rowSpec]
  | cons y ys ih =>
    rw [rowSpec, List.getLastD_cons, ih (V ++ [y])]
    congr 2
    simp

theorem lev_dist {α : Type} [DecidableEq α] (s1 s2 : List α) :
    levenshtein_distance s1 s2 = lev s1.reverse s2.reverse := by
  unfold levenshtein_distance
  have h0 : rowSpec ([] : List α) [] s2 = List.range (s2.length + 1) := by
    rw [rowSpec_nil_left]
    simp
  rw [← h0]
  have h1 := levFold_spec s2 s1 ([] : List α)
  rw [List.length_nil] at h1
  rw [h1, List.append_nil, rowSpec_getLastD]
  rfl

/-! ### The Wagner–Fischer table computes the reference recursion -/

theorem take_succ_reverse {α : Type} (l : List α) (i : Nat) (h : i < l.length) :
    (l.take (i + 1)).reverse = l[i] :: (l.take i).reverse := by
  rw [List.take_succ, List.getElem?_eq_getElem h]
  simp

theorem wfTable_eq {α : Type} [DecidableEq α] (s1 s2 : List α) (i j : Nat)
    (hi : i ≤ s1.length) (hj : j ≤ s2.length) :
    wfTable s1 s2 i j = lev (s1.take i).reverse (s2.take j).reverse := by
  match i, j with
  | 0, j =>
    rw [wfTable, List.take_zero, List.reverse_nil, lev_nil_left,
      List.length_reverse, List.length_take]
    omega
  | i + 1, 0 =>
    rw [wfTable, List.take_zero, List.reverse_nil, lev_nil_right,
      List.length_reverse, List.length_take]
    omega
  | i + 1, j + 1 =>
    have hi' : i < s1.length := by omega
    have hj' : j < s2.length := by omega
    rw [wfTable,
      wfTable_eq s1 s2 i (j + 1) (by omega) hj,
      wfTable_eq s1 s2 (i + 1) j hi (by omega),
      wfTable_eq s1 s2 i j (by omega) (by omega),
      take_succ_reverse s1 i hi', take_succ_reverse s2 j hj',
      lev_cons_cons,
      List.getElem?_eq_getElem hi', List.getElem?_eq_getElem hj']
    simp
termination_by (i, j)

/-! ### Algebraic properties of the edit distance -/

theorem lev_comm {α : Type} [DecidableEq α] (a b : List α) :
    lev a b = lev b a := by
  match a, b with
  | [], b => rw [lev_nil_left, lev_nil_right]
  | a, [] => rw [lev_nil_left, lev_nil_right]
  | x :: s, y :: t =>
    rw [lev_cons_cons, lev_cons_cons,
      lev_comm s (y :: t), lev_comm (x :: s) t, lev_comm s t]
    have hδ : (if x = y then 0 else 1 : Nat) = (if y = x then 0 else 1) := by
      by_cases h : x = y
      · rw [if_pos h, if_pos h.symm]
      · rw [if_neg h, if_neg (fun h' : y = x => h h'.symm)]
    rw [hδ, Nat.min_comm (lev (y :: t) s + 1) (lev t (x :: s) + 1)]
termination_by a.length + b.length
decreasing_by all_goals simp_arith

theorem lev_le_max {α : Type} [DecidableEq α] (a b : List α) :
    lev a b ≤ max a.length b.length := by
  match a, b with
  | [], b =>
    rw [lev_nil_left]
    exact le_max_right _ _
  | x :: s, [] =>
    rw [lev_nil_right]
    exact le_max_left _ _
  | x :: s, y :: t =>
    rw [lev_cons_cons]
    have h := lev_le_max s t
    have hδ : (if x = y then 0 else 1 : Nat) ≤ 1 := by
      by_cases hxy : x = y <;> simp [hxy]
    simp only [List.length_cons]
    omega
termination_by a.length + b.length
decreasing_by all_goals simp_arith

theorem lev_length_sub_le {α : Type} [DecidableEq α] (a b : List α) :
    a.length - b.length ≤ lev a b ∧ b.length - a.length ≤ lev a b := by
  match a, b with
  | [], b =>
    rw [lev_nil_left]
    simp
  | x :: s, [] =>
    rw [lev_nil_right]
    simp
  | x :: s, y :: t =>
    rw [lev_cons_cons]
    obtain ⟨h1, h2⟩ := lev_length_sub_le s (y :: t)
    obtain ⟨h3, h4⟩ := lev_length_sub_le (x :: s) t
    obtain ⟨h5, h6⟩ := lev_length_sub_le s t
    simp only [List.length_cons] at *
    omega
termination_by a.length + b.length
decreasing_by all_goals simp_arith

theorem lev_del_le {α : Type} [DecidableEq α] (x : α) (s t : List α) :
    lev (x :: s) t ≤ lev s t + 1 := by
  cases t with
  | nil =>
    rw [lev_nil_right, lev_nil_right, List.length_cons]
  | cons y t =>
    rw [lev_cons_cons]
    exact le_trans (min_le_left _ _) (min_le_left _ _)

theorem lev_ins_le {α : Type} [DecidableEq α] (y : α) (s t : List α) :
    lev s (y :: t) ≤ lev s t + 1 := by
  cases s with
  | nil =>
    rw [lev_nil_left, lev_nil_left, List.length_cons]
  | cons x s =>
    rw [lev_cons_cons]
    exact le_trans (min_le_left _ _) (min_le_right _ _)

theorem lev_subst_le {α : Type} [DecidableEq α] (x z : α) (s t : List α) :
    lev (x :: s) (z :: t) ≤ lev s t + (if x = z then 0 else 1) := by
  rw [lev_cons_cons]
  exact min_le_right _ _

theorem min3_split (p q r : Nat) :
    min (min p q) r = p ∨ min (min p q) r = q ∨ min (min p q) r = r := by
  omega

theorem delta_triangle {α : Type} [DecidableEq α] (x y z : α) :
    (if x = z then 0 else 1 : Nat) ≤
      (if x = y then 0 else 1) + (if y = z then 0 else 1) := by
  by_cases hxz : x = z
  · rw [if_pos hxz]
    omega
  · rw [if_neg hxz]
    by_cases hxy : x = y
    · subst hxy
      rw [if_pos rfl, if_neg hxz]
    · rw [if_neg hxy]
      omega

theorem lev_triangle {α : Type} [DecidableEq α] (a b c : List α) :
    lev a c ≤ lev a b + lev b c := by
  match a, b, c with
  | a, [], c =>
    rw [lev_nil_right, lev_nil_left]
    have h := lev_le_max a c
    omega
  | [], y :: b', c =>
    rw [lev_nil_left, lev_nil_left]
    have h := (lev_length_sub_le (y :: b') c).2
    omega
  | x :: a', y :: b', [] =>
    rw [lev_nil_right, lev_nil_right]
    have h := (lev_length_sub_le (x :: a') (y :: b')).1
    omega
  | x :: a', y :: b', z :: c' =>
    have hab := lev_cons_cons x a' y b'
    have hbc := lev_cons_cons y b' z c'
    rcases min3_split (lev a' (y :: b') + 1) (lev (x :: a') b' + 1)
        (lev a' b' + (if x = y then 0 else 1)) with h1 | h1 | h1
    · have hd := lev_del_le x a' (z :: c')
      have ht := lev_triangle a' (y :: b') (z :: c')
      omega
    · rcases min3_split (lev b' (z :: c') + 1) (lev (y :: b') c' + 1)
          (lev b' c' + (if y = z then 0 else 1)) with h2 | h2 | h2
      · have ht := lev_triangle (x :: a') b' (z :: c')
        omega
      · have ht := lev_triangle (x :: a') (y :: b') c'
        have hi := lev_ins_le z (x :: a') c'
        omega
      · have ht := lev_triangle (x :: a') b' (z :: c')
        have hi := lev_ins_le z b' c'
        omega
    · rcases min3_split (lev b' (z :: c') + 1) (lev (y :: b') c' + 1)
          (lev b' c' + (if y = z then 0 else 1)) with h2 | h2 | h2
      · have ht := lev_triangle a' b' (z :: c')
        have hd := lev_del_le x a' (z :: c')
        omega
      · have ht := lev_triangle (x :: a') (y :: b') c'
        have hi := lev_ins_le z (x :: a') c'
        omega
      · have ht := lev_triangle a' b' c'
        have hs := lev_subst_le x z a' c'
        have hδ := delta_triangle x y z
        omega
termination_by a.length + b.length + c.length
decreasing_by all_goals simp_arith

/-! ### Whitespace facts about strip and collapseWs -/

theorem head?_dropWhile_false (p : Char → Bool) (l : List Char) (c : Char)
    (h : (l.dropWhile p).head? = some c) : p c = false := by
  induction l with
  | nil => simp [List.dropWhile] at h
  | cons a l ih =>
    rw [List.dropWhile_cons] at h
    by_cases hp : p a
    · rw [if_pos hp] at h
      exact ih h
    · rw [if_neg hp] at h
      rw [List.head?_cons, Option.some.injEq] at h
      subst h
      cases hb : p a with
      | false => rfl
      | true => exact absurd hb hp

theorem getLast?_dropWhile (p : Char → Bool) (l : List Char)
    (h : l.dropWhile p ≠ []) : (l.dropWhile p).getLast? = l.getLast? := by
  induction l with
  | nil => rfl
  | cons a l ih =>
    rw [List.dropWhile_cons] at h ⊢
    by_cases hp : p a
    · rw [if_pos hp] at h ⊢
      have hl : l ≠ [] := by
        intro he
        rw [he] at h
        exact h rfl
      rw [ih h]
      cases l with
      | nil => exact absurd rfl hl
      | cons b l' => rw [List.getLast?_cons_cons]
    · rw [if_neg hp]

theorem noEdge_intro (u : List Char)
    (h1 : ∀ c, u.head? = some c → isSpace c = false)
    (h2 : ∀ c, u.getLast? = some c → isSpace c = false) :
    noEdgeSpace u = true := by
  unfold noEdgeSpace
  rw [Bool.and_eq_true]
  constructor
  · cases hh : u.head? with
    | none => rfl
    | some c =>
      show (!(isSpace c)) = true
      rw [h1 c hh]
      rfl
  · cases hh : u.getLast? with
    | none => rfl
    | some c =>
      show (!(isSpace c)) = true
      rw [h2 c hh]
      rfl

theorem noEdgeSpace_strip (l : List Char) : noEdgeSpace (strip l) = true := by
  apply noEdge_intro
  · intro c hc
    rw [strip, List.head?_reverse] at hc
    have hne : (l.dropWhile isSpace).reverse.dropWhile isSpace ≠ [] := by
      intro he
      rw [he] at hc
      exact Option.noConfusion hc
    rw [getLast?_dropWhile _ _ hne, List.getLast?_reverse] at hc
    exact head?_dropWhile_false _ _ _ hc
  · intro c hc
    rw [strip, List.getLast?_reverse] at hc
    exact head?_dropWhile_false _ _ _ hc

theorem dropWhile_eq_self_of_head (p : Char → Bool) (u : List Char)
    (h : ∀ c, u.head? = some c → p c = false) : u.dropWhile p = u := by
  cases u with
  | nil => rfl
  | cons a u' =>
    rw [List.dropWhile_cons, if_neg]
    intro hp
    rw [h a rfl] at hp
    exact Bool.noConfusion hp

theorem strip_of_noEdge (u : List Char) (h : noEdgeSpace u = true) :
    strip u = u := by
  unfold noEdgeSpace at h
  rw [Bool.and_eq_true] at h
  obtain ⟨h1, h2⟩ := h
  have hh : ∀ c, u.head? = some c → isSpace c = false := by
    intro c hc
    rw [hc] at h1
    have h1' : (!(isSpace c)) = true := h1
    cases hb : isSpace c with
    | false => rfl
    | true => rw [hb] at h1'; exact Bool.noConfusion h1'
  have hl : ∀ c, u.getLast? = some c → isSpace c = false := by
    intro c hc
    rw [hc] at h2
    have h2' : (!(isSpace c)) = true := h2
    cases hb : isSpace c with
    | false => rfl
    | true => rw [hb] at h2'; exact Bool.noConfusion h2'
  rw [strip, dropWhile_eq_self_of_head _ _ hh,
    dropWhile_eq_self_of_head _ _
      (fun c hc => hl c (by rwa [List.head?_reverse] at hc)),
    List.reverse_reverse]

theorem collapseWs_cons_nonspace (d : Char) (rest : List Char)
    (hd : ¬ isSpace d = true) : ∃ tl, collapseWs (d :: rest) = d :: tl := by
  cases rest with
  | nil =>
    rw [collapseWs, if_neg hd]
    exact ⟨[], rfl⟩
  | cons e r =>
    rw [collapseWs, if_neg hd]
    exact ⟨_, rfl⟩

theorem wsOk_collapseWs (l : List Char) : wsOk (collapseWs l) = true := by
  match l with
  | [] => rfl
  | [c] =>
    rw [collapseWs]
    by_cases h : isSpace c
    · rw [if_pos h]
      rfl
    · rw [if_neg h]
      simp [wsOk, h]
  | c :: d :: rest =>
    rw [collapseWs]
    by_cases hc : isSpace c
    · rw [if_pos hc]
      by_cases hd : isSpace d
      · rw [if_pos hd]
        exact wsOk_collapseWs (d :: rest)
      · rw [if_neg hd]
        obtain ⟨tl, htl⟩ := collapseWs_cons_nonspace d rest hd
        have hrec := wsOk_collapseWs (d :: rest)
        rw [htl] at hrec ⊢
        rw [wsOk, Bool.and_eq_true]
        refine ⟨?_, hrec⟩
        rw [List.headD_cons]
        cases hb : isSpace d with
        | false => rfl
        | true => exact absurd hb hd
    · rw [if_neg hc]
      have hrec := wsOk_collapseWs (d :: rest)
      simp [wsOk, hc, hrec]
termination_by l.length
decreasing_by all_goals simp_arith

theorem collapseWs_of_wsOk (l : List Char) (h : wsOk l = true) :
    collapseWs l = l := by
  match l with
  | [] => rfl
  | [c] =>
    rw [collapseWs]
    by_cases hc : isSpace c
    · rw [if_pos hc]
      rw [wsOk, Bool.and_eq_true, Bool.or_eq_true] at h
      rcases h.1 with h1 | h1
      · rw [hc] at h1
        exact Bool.noConfusion h1
      · rw [Bool.and_eq_true] at h1
        have : c = blank := by
          have := h1.1
          exact eq_of_beq this
        rw [this]
    · rw [if_neg hc]
  | c :: d :: rest =>
    rw [collapseWs]
    rw [wsOk, Bool.and_eq_true, Bool.or_eq_true] at h
    have hrec := collapseWs_of_wsOk (d :: rest) h.2
    by_cases hc : isSpace c
    · rw [if_pos hc]
      rcases h.1 with h1 | h1
      · rw [hc] at h1
        exact Bool.noConfusion h1
      · rw [Bool.and_eq_true] at h1
        have hcb : c = blank := eq_of_beq h1.1
        have hd : ¬ isSpace d = true := by
          have hthis := h1.2
          rw [List.headD_cons] at hthis
          intro hx
          rw [hx] at hthis
          exact Bool.noConfusion hthis
        rw [if_neg hd, hrec, hcb]
    · rw [if_neg hc, hrec]
termination_by l.length
decreasing_by all_goals simp_arith

theorem wsOk_dropWhile (l : List Char) (h : wsOk l = true) :
    wsOk (l.dropWhile isSpace) = true := by
  induction l with
  | nil => rfl
  | cons c rest ih =>
    rw [List.dropWhile_cons]
    rw [wsOk, Bool.and_eq_true] at h
    by_cases hc : isSpace c
    · rw [if_pos hc]
      exact ih h.2
    · rw [if_neg hc]
      rw [wsOk, Bool.and_eq_true]
      exact h

theorem wsOk_append_left (l1 l2 : List Char) (h : wsOk (l1 ++ l2) = true) :
    wsOk l1 = true := by
  induction l1 with
  | nil => rfl
  | cons c l1' ih =>
    rw [List.cons_append, wsOk, Bool.and_eq_true] at h
    rw [wsOk, Bool.and_eq_true]
    refine ⟨?_, ih h.2⟩
    have h1 := h.1
    cases l1' with
    | nil =>
      rw [Bool.or_eq_true] at h1 ⊢
      rcases h1 with h1 | h1
      · exact Or.inl h1
      · rw [Bool.and_eq_true] at h1
        refine Or.inr ?_
        rw [Bool.and_eq_true]
        exact ⟨h1.1, rfl⟩
    | cons e r =>
      rw [List.cons_append, List.headD_cons] at h1
      rw [List.headD_cons]
      exact h1

theorem wsOk_strip (l : List Char) (h : wsOk l = true) :
    wsOk (strip l) = true := by
  have hu : wsOk (l.dropWhile isSpace) = true := wsOk_dropWhile l h
  have hdec : l.dropWhile isSpace =
      strip l ++ ((l.dropWhile isSpace).reverse.takeWhile isSpace).reverse := by
    have h2 := congrArg List.reverse
      (List.takeWhile_append_dropWhile (p := isSpace)
        (l := (l.dropWhile isSpace).reverse))
    rw [List.reverse_append, List.reverse_reverse] at h2
    rw [strip]
    exact h2.symm
  rw [hdec] at hu
  exact wsOk_append_left _ _ hu

theorem mem_collapseWs (c : Char) (l : List Char) (h : c ∈ collapseWs l) :
    c = blank ∨ c ∈ l := by
  match l with
  | [] => exact absurd h (by simp [collapseWs])
  | [a] =>
    rw [collapseWs] at h
    by_cases ha : isSpace a
    · rw [if_pos ha] at h
      rw [List.mem_singleton] at h
      exact Or.inl h
    · rw [if_neg ha] at h
      rw [List.mem_singleton] at h
      exact Or.inr (by rw [h]; exact List.mem_singleton_self a)
  | a :: b :: rest =>
    rw [collapseWs] at h
    by_cases ha : isSpace a
    · rw [if_pos ha] at h
      by_cases hb : isSpace b
      · rw [if_pos hb] at h
        rcases mem_collapseWs c (b :: rest) h with h' | h'
        · exact Or.inl h'
        · exact Or.inr (List.mem_cons_of_mem a h')
      · rw [if_neg hb] at h
        rcases List.mem_cons.mp h with h' | h'
        · exact Or.inl h'
        · rcases mem_collapseWs c (b :: rest) h' with h'' | h''
          · exact Or.inl h''
          · exact Or.inr (List.mem_cons_of_mem a h'')
    · rw [if_neg ha] at h
      rcases List.mem_cons.mp h with h' | h'
      · exact Or.inr (by rw [h']; exact List.mem_cons_self a _)
      · rcases mem_collapseWs c (b :: rest) h' with h'' | h''
        · exact Or.inl h''
        · exact Or.inr (List.mem_cons_of_mem a h'')
termination_by l.length
decreasing_by all_goals simp_arith

theorem mem_strip (c : Char) (l : List Char) (h : c ∈ strip l) : c ∈ l := by
  rw [strip, List.mem_reverse] at h
  have h1 : c ∈ (l.dropWhile isSpace).reverse :=
    (List.dropWhile_sublist _).subset h
  rw [List.mem_reverse] at h1
  exact (List.dropWhile_sublist _).subset h1

/-! ### Metric unfolding helpers -/

theorem cer_def (nfc : List Char → List Char) (reference hypothesis : List Char)
    (nm rp rn : Bool) :
    cer nfc reference hypothesis nm rp rn =
      (if (if nm then normalize_text nfc reference rp rn else reference).length = 0 then
        if (if nm then normalize_text nfc hypothesis rp rn else hypothesis).length = 0 then
          Except.ok 0
        else Except.error MetricError.emptyReference
      else
        Except.ok
          ((levenshtein_distance
              (if nm then normalize_text nfc reference rp rn else reference)
              (if nm then normalize_text nfc hypothesis rp rn else hypothesis) : ℚ) /
            ((if nm then normalize_text nfc reference rp rn else reference).length : ℚ))) :=
  rfl

theorem wer_def (nfc : List Char → List Char) (reference hypothesis : List Char)
    (nm rp rn : Bool) :
    wer nfc reference hypothesis nm rp rn =
      (if (splitWs (if nm then normalize_text nfc reference rp rn else reference)).length = 0 then
        if (splitWs (if nm then normalize_text nfc hypothesis rp rn else hypothesis)).length = 0 then
          Except.ok 0
        else Except.error MetricError.emptyReference
      else
        Except.ok
          ((levenshtein_distance
              (splitWs (if nm then normalize_text nfc reference rp rn else reference))
              (splitWs (if nm then normalize_text nfc hypothesis rp rn else hypothesis)) : ℚ) /
            ((splitWs (if nm then normalize_text nfc reference rp rn else reference)).length : ℚ))) :=
  rfl

theorem levenshtein_distance_nil_right {α : Type} [DecidableEq α] (s : List α) :
    levenshtein_distance s [] = s.length := by
  rw [lev_dist, List.reverse_nil, lev_nil_right, List.length_reverse]

/-! ### Digit-freeness along the normalization pipeline -/

theorem digitfree_pipeline (rp : Bool) (s : List Char)
    (hd : ∀ c ∈ s, isDigit c = false) :
    ∀ c ∈ strip (collapseWs (specStepPunct rp s)), isDigit c = false := by
  have hd2 : ∀ c ∈ specStepPunct rp s, isDigit c = false := by
    intro c hc
    rw [specStepPunct] at hc
    have hs : c ∈ s := by
      by_cases hrp : rp = true
      · rw [if_pos hrp] at hc
        exact (List.mem_filter.mp hc).1
      · rw [if_neg hrp] at hc
        exact hc
    exact hd c hs
  intro c hc
  rcases mem_collapseWs c _ (mem_strip c _ hc) with h' | h'
  · rw [h']
    rfl
  · exact hd2 c h'

theorem normalize_text_digitfree_eq (rp rn : Bool) (s : List Char)
    (hd : ∀ c ∈ s, isDigit c = false) :
    normalize_text nfcId s rp rn = strip (collapseWs (specStepPunct rp s)) := by
  have hd3 := digitfree_pipeline rp s hd
  show (if rn then
      strip ((strip (collapseWs (specStepPunct rp s))).filter (fun c => !(isDigit c)))
    else strip (collapseWs (specStepPunct rp s))) =
    strip (collapseWs (specStepPunct rp s))
  by_cases hrn : rn = true
  · rw [if_pos hrn,
      List.filter_eq_self.mpr
        (fun a ha => by show (!(isDigit a)) = true; rw [hd3 a ha]; rfl)]
    exact strip_of_noEdge _ (noEdgeSpace_strip _)
  · rw [if_neg hrn]

/-! ### The claims -/

/-- C1: whenever the reference token sequence obtained from steps 1–2
(normalization when the flag is set, raw input otherwise, then tokenization)
is non-empty, `cer` returns the Levenshtein distance of the two character
sequences divided by the reference character count, and `wer` returns the
Levenshtein distance of the two whitespace-split word sequences divided by
the reference word count, as exact unrounded division. -/
theorem cer_wer_distance_ratio (nfc : List Char → List Char)
    (reference hypothesis : List Char) (nm rp rn : Bool) :
    ((if nm then normalize_text nfc reference rp rn else reference) ≠ [] →
      cer nfc reference hypothesis nm rp rn =
        Except.ok
          ((levenshtein_distance
              (if nm then normalize_text nfc reference rp rn else reference)
              (if nm then normalize_text nfc hypothesis rp rn else hypothesis) : ℚ) /
            ((if nm then normalize_text nfc reference rp rn else reference).length : ℚ)))
    ∧ (splitWs (if nm then normalize_text nfc reference rp rn else reference) ≠ [] →
      wer nfc reference hypothesis nm rp rn =
        Except.ok
          ((levenshtein_distance
              (splitWs (if nm then normalize_text nfc reference rp rn else reference))
              (splitWs (if nm then normalize_text nfc hypothesis rp rn else hypothesis)) : ℚ) /
            ((splitWs (if nm then normalize_text nfc reference rp rn else reference)).length : ℚ))) := by
  constructor
  · intro h
    rw [cer_def, if_neg (fun hc => h (List.length_eq_zero.mp hc))]
  · intro h
    rw [wer_def, if_neg (fun hc => h (List.length_eq_zero.mp hc))]

/-- Witness for C1 at concrete inputs. -/
theorem cer_wer_distance_ratio_witness :
    cer nfcId ("ab".toList) ("b".toList) true true true = Except.ok ((1 : ℚ) / 2) ∧
    wer nfcId ("aa bb".toList) ("aa".toList) false true true = Except.ok ((1 : ℚ) / 2) := by
  constructor
  · have h := (cer_wer_distance_ratio nfcId ("ab".toList) ("b".toList) true true true).1
      (by decide)
    rw [h]
    have e1 : (if true then normalize_text nfcId ("ab".toList) true true
        else "ab".toList) = "ab".toList := by decide
    have e2 : (if true then normalize_text nfcId ("b".toList) true true
        else "b".toList) = "b".toList := by decide
    rw [e1, e2]
    have e3 : levenshtein_distance ("ab".toList) ("b".toList) = 1 := by decide
    have e4 : ("ab".toList).length = 2 := by decide
    rw [e3, e4]
    norm_num
  · have h := (cer_wer_distance_ratio nfcId ("aa bb".toList) ("aa".toList) false true true).2
      (by decide)
    rw [h]
    have e1 : (if false then normalize_text nfcId ("aa bb".toList) true true
        else "aa bb".toList) = "aa bb".toList := by decide
    have e2 : (if false then normalize_text nfcId ("aa".toList) true true
        else "aa".toList) = "aa".toList := by decide
    rw [e1, e2]
    have e3 : levenshtein_distance (splitWs ("aa bb".toList)) (splitWs ("aa".toList)) = 1 := by
      decide
    have e4 : (splitWs ("aa bb".toList)).length = 2 := by decide
    rw [e3, e4]
    norm_num

/-- C2: for both `cer` and `wer`, an empty reference token sequence together
with an empty hypothesis token sequence yields the score `0.0`, while an
empty reference with a non-empty hypothesis fails with the empty-reference
error and no numeric score is returned. -/
theorem cer_wer_empty_reference (nfc : List Char → List Char)
    (reference hypothesis : List Char) (nm rp rn : Bool) :
    (((if nm then normalize_text nfc reference rp rn else reference) = [] →
        (if nm then normalize_text nfc hypothesis rp rn else hypothesis) = [] →
        cer nfc reference hypothesis nm rp rn = Except.ok 0)
      ∧ ((if nm then normalize_text nfc reference rp rn else reference) = [] →
        (if nm then normalize_text nfc hypothesis rp rn else hypothesis) ≠ [] →
        cer nfc reference hypothesis nm rp rn =
          Except.error MetricError.emptyReference))
    ∧ ((splitWs (if nm then normalize_text nfc reference rp rn else reference) = [] →
        splitWs (if nm then normalize_text nfc hypothesis rp rn else hypothesis) = [] →
        wer nfc reference hypothesis nm rp rn = Except.ok 0)
      ∧ (splitWs (if nm then normalize_text nfc reference rp rn else reference) = [] →
        splitWs (if nm then normalize_text nfc hypothesis rp rn else hypothesis) ≠ [] →
        wer nfc reference hypothesis nm rp rn =
          Except.error MetricError.emptyReference)) := by
  refine ⟨⟨?_, ?_⟩, ?_, ?_⟩
  · intro h1 h2
    rw [cer_def, if_pos (by rw [h1]; rfl), if_pos (by rw [h2]; rfl)]
  · intro h1 h2
    rw [cer_def, if_pos (by rw [h1]; rfl),
      if_neg (fun hc => h2 (List.length_eq_zero.mp hc))]
  · intro h1 h2
    rw [wer_def, if_pos (by rw [h1]; rfl), if_pos (by rw [h2]; rfl)]
  · intro h1 h2
    rw [wer_def, if_pos (by rw [h1]; rfl),
      if_neg (fun hc => h2 (List.length_eq_zero.mp hc))]

/-- Witness for C2 at concrete inputs. -/
theorem cer_wer_empty_reference_witness :
    cer nfcId [] [] false true true = Except.ok 0 ∧
    cer nfcId [] ("a".toList) false true true =
      Except.error MetricError.emptyReference ∧
    wer nfcId [] [] false true true = Except.ok 0 ∧
    wer nfcId [] ("a".toList) false true true =
      Except.error MetricError.emptyReference :=
  ⟨(cer_wer_empty_reference nfcId [] [] false true true).1.1 rfl rfl,
   (cer_wer_empty_reference nfcId [] ("a".toList) false true true).1.2 rfl (by decide),
   (cer_wer_empty_reference nfcId [] [] false true true).2.1 rfl rfl,
   (cer_wer_empty_reference nfcId [] ("a".toList) false true true).2.2 rfl (by decide)⟩

/-- C3: `levenshtein_distance` coincides with the Wagner–Fischer dynamic
program evaluated at `(|seqA|, |seqB|)`, for sequences over any type with
decidable equality; the result is a natural number and hence non-negative. -/
theorem levenshtein_distance_eq_wfTable {α : Type} [DecidableEq α]
    (s1 s2 : List α) :
    levenshtein_distance s1 s2 = wfTable s1 s2 s1.length s2.length := by
  rw [wfTable_eq s1 s2 _ _ le_rfl le_rfl, List.take_length, List.take_length,
    lev_dist]

/-- C6: `levenshtein_distance` is symmetric in its two arguments. -/
theorem levenshtein_distance_symm {α : Type} [DecidableEq α]
    (a b : List α) :
    levenshtein_distance a b = levenshtein_distance b a := by
  rw [lev_dist, lev_dist, lev_comm]

/-- C7: `levenshtein_distance` satisfies the triangle inequality. -/
theorem levenshtein_distance_triangle {α : Type} [DecidableEq α]
    (a b c : List α) :
    levenshtein_distance a c ≤
      levenshtein_distance a b + levenshtein_distance b c := by
  rw [lev_dist, lev_dist, lev_dist]
  exact lev_triangle a.reverse b.reverse c.reverse

/-- C4: `normalize_text` applies, in this exact order, NFC, conditional
punctuation removal, whitespace collapsing plus trimming, and conditional
digit removal followed by re-trimming — i.e. it equals the spec's pipeline
verbatim — and on `"Hello, World! 123"` with default flags it returns
`"Hello World"`. -/
theorem normalize_matches_spec_pipeline :
    (∀ (nfc : List Char → List Char) (t : List Char) (rp rn : Bool),
        normalize_text nfc t rp rn = normalizeSpec nfc t rp rn)
    ∧ normalize_text nfcId ("Hello, World! 123".toList) true true =
        "Hello World".toList :=
  ⟨fun _ _ _ _ => rfl, by decide⟩

/-- C5 counterexample: normalization is not idempotent on the code — on
`"a 1 b"` (with default flags; NFC is the identity on this ASCII input) the
first pass leaves the doubled internal space produced by digit removal, and a
second pass collapses it. -/
theorem normalize_not_idempotent_cex :
    ¬ (normalize_text nfcId
          (normalize_text nfcId ("a 1 b".toList) true true) true true =
        normalize_text nfcId ("a 1 b".toList) true true) := by
  decide

/-- Changing the NFC function does not change `normalize_text` on an input
that the NFC function fixes: NFC is applied once, at the front of the
pipeline. -/
theorem normalize_text_congr (nfc : List Char → List Char) (t : List Char)
    (rp rn : Bool) (h : nfc t = t) :
    normalize_text nfc t rp rn = normalize_text nfcId t rp rn := by
  unfold normalize_text
  rw [h]
  rfl

/-- Every character of a normalization result (with the identity NFC) is the
ASCII blank introduced by whitespace collapsing or a character of the input:
all other pipeline steps only remove characters. -/
theorem mem_normalize_nfcId (s : List Char) (rp rn : Bool) (c : Char)
    (h : c ∈ normalize_text nfcId s rp rn) : c = blank ∨ c ∈ s := by
  have hpunct : ∀ a : Char, a ∈ specStepPunct rp s → a ∈ s := by
    intro a ha
    rw [specStepPunct] at ha
    by_cases hrp : rp = true
    · rw [if_pos hrp] at ha
      exact (List.mem_filter.mp ha).1
    · rw [if_neg hrp] at ha
      exact ha
  have h' : c ∈ (if rn then
      strip ((strip (collapseWs (specStepPunct rp s))).filter
        (fun c => !(isDigit c)))
    else strip (collapseWs (specStepPunct rp s))) := h
  by_cases hrn : rn = true
  · rw [if_pos hrn] at h'
    have h2 := mem_strip _ _ h'
    have h3 := (List.mem_filter.mp h2).1
    have h4 := mem_strip _ _ h3
    rcases mem_collapseWs _ _ h4 with h5 | h5
    · exact Or.inl h5
    · exact Or.inr (hpunct c h5)
  · rw [if_neg hrn] at h'
    have h4 := mem_strip _ _ h'
    rcases mem_collapseWs _ _ h4 with h5 | h5
    · exact Or.inl h5
    · exact Or.inr (hpunct c h5)

/-- Idempotence of `normalize_text` at the identity NFC on digit-free
inputs; the NFC-generic claim theorem reduces to this instance. -/
theorem normalize_nfcId_idempotent_digitfree (t : List Char) (rp rn : Bool)
    (hdf : ∀ c ∈ t, isDigit c = false) :
    normalize_text nfcId (normalize_text nfcId t rp rn) rp rn =
      normalize_text nfcId t rp rn := by
  rw [normalize_text_digitfree_eq rp rn t hdf]
  have hd3 := digitfree_pipeline rp t hdf
  rw [normalize_text_digitfree_eq rp rn _ hd3]
  have hpunct : specStepPunct rp (strip (collapseWs (specStepPunct rp t))) =
      strip (collapseWs (specStepPunct rp t)) := by
    rw [specStepPunct]
    by_cases hrp : rp = true
    · rw [if_pos hrp]
      apply List.filter_eq_self.mpr
      intro a ha
      show (!(isPunct a)) = true
      rcases mem_collapseWs a _ (mem_strip a _ ha) with h' | h'
      · rw [h']
        rfl
      · rw [specStepPunct, if_pos hrp] at h'
        rw [(List.mem_filter.mp h').2]
    · rw [if_neg hrp]
  rw [hpunct, collapseWs_of_wsOk _ (wsOk_strip _ (wsOk_collapseWs _))]
  exact strip_of_noEdge _ (noEdgeSpace_strip _)

/-- C5 (amended): normalization is idempotent on every input consisting of
ASCII non-digit characters, under every combination of the two flags and for
every NFC function that is the identity on ASCII strings — as Unicode NFC is,
since no ASCII character has a canonical decomposition or takes part in a
canonical composition. The unrestricted claim fails in two ways: digit
removal can leave a doubled internal space that only a second pass collapses
(the counterexample above), and punctuation removal can expose a
base-plus-combining-mark pair that only the second pass's NFC composes
(e.g. `e` `!` U+0301). -/
theorem normalize_idempotent_ascii_digitfree (nfc : List Char → List Char)
    (hnfc : ∀ s : List Char, (∀ c ∈ s, c.toNat < 128) → nfc s = s)
    (t : List Char) (rp rn : Bool)
    (hascii : ∀ c ∈ t, c.toNat < 128)
    (hdf : ∀ c ∈ t, isDigit c = false) :
    normalize_text nfc (normalize_text nfc t rp rn) rp rn =
      normalize_text nfc t rp rn := by
  have h1 : normalize_text nfc t rp rn = normalize_text nfcId t rp rn :=
    normalize_text_congr nfc t rp rn (hnfc t hascii)
  have huascii : ∀ c ∈ normalize_text nfcId t rp rn, c.toNat < 128 := by
    intro c hc
    rcases mem_normalize_nfcId t rp rn c hc with h | h
    · rw [h]
      decide
    · exact hascii c h
  rw [h1, normalize_text_congr nfc _ rp rn (hnfc _ huascii)]
  exact normalize_nfcId_idempotent_digitfree t rp rn hdf

/-- Witness for the amended C5 at a concrete ASCII digit-free input, with the
identity NFC (which satisfies the ASCII-identity hypothesis). -/
theorem normalize_idempotent_ascii_digitfree_witness :
    (∀ c ∈ ("ab cd".toList), c.toNat < 128 ∧ isDigit c = false) ∧
    normalize_text nfcId (normalize_text nfcId ("ab cd".toList) true true) true true =
      normalize_text nfcId ("ab cd".toList) true true :=
  ⟨by decide,
   normalize_idempotent_ascii_digitfree nfcId (fun _ _ => rfl) ("ab cd".toList)
     true true (by decide) (by decide)⟩

/-- C8: the edit distance is bounded below by the length difference and above
by the larger length; consequently a non-empty reference scored against an
empty hypothesis yields exactly `1.0` for both `cer` and `wer`. -/
theorem levenshtein_bounds_and_empty_hypothesis :
    (∀ (α : Type) [DecidableEq α] (s1 s2 : List α),
        ((s1.length : ℤ) - (s2.length : ℤ)).natAbs ≤ levenshtein_distance s1 s2
          ∧ levenshtein_distance s1 s2 ≤ max s1.length s2.length)
    ∧ (∀ (nfc : List Char → List Char) (reference hypothesis : List Char)
        (nm rp rn : Bool),
        ((if nm then normalize_text nfc reference rp rn else reference) ≠ [] →
          (if nm then normalize_text nfc hypothesis rp rn else hypothesis) = [] →
          cer nfc reference hypothesis nm rp rn = Except.ok 1)
        ∧ (splitWs (if nm then normalize_text nfc reference rp rn else reference) ≠ [] →
          splitWs (if nm then normalize_text nfc hypothesis rp rn else hypothesis) = [] →
          wer nfc reference hypothesis nm rp rn = Except.ok 1)) := by
  constructor
  · intro α hinst s1 s2
    constructor
    · have h := lev_length_sub_le s1.reverse s2.reverse
      rw [← lev_dist] at h
      simp only [List.length_reverse] at h
      omega
    · have h := lev_le_max s1.reverse s2.reverse
      rw [← lev_dist] at h
      simp only [List.length_reverse] at h
      exact h
  · intro nfc reference hypothesis nm rp rn
    constructor
    · intro h1 h2
      have hne : (((if nm then normalize_text nfc reference rp rn else reference).length : ℚ)) ≠ 0 := by
        rw [Nat.cast_ne_zero]
        intro h0
        exact h1 (List.length_eq_zero.mp h0)
      rw [cer_def, if_neg (fun hc => h1 (List.length_eq_zero.mp hc)), h2,
        levenshtein_distance_nil_right, div_self hne]
    · intro h1 h2
      have hne : (((splitWs (if nm then normalize_text nfc reference rp rn else reference)).length : ℚ)) ≠ 0 := by
        rw [Nat.cast_ne_zero]
        intro h0
        exact h1 (List.length_eq_zero.mp h0)
      rw [wer_def, if_neg (fun hc => h1 (List.length_eq_zero.mp hc)), h2,
        levenshtein_distance_nil_right, div_self hne]

/-- Witness for C8 at concrete inputs. -/
theorem levenshtein_bounds_and_empty_hypothesis_witness :
    cer nfcId ("ab".toList) [] true true true = Except.ok 1 ∧
    wer nfcId ("ab cd".toList) [] true true true = Except.ok 1 :=
  ⟨((levenshtein_bounds_and_empty_hypothesis.2 nfcId ("ab".toList) [] true true true).1
      (by decide) (by decide)),
   ((levenshtein_bounds_and_empty_hypothesis.2 nfcId ("ab cd".toList) [] true true true).2
      (by decide) (by decide))⟩

/-- C9: the entry guard of `normalize_text` fails exactly on the `None`
input (in the typed model every other input already is a string), and the
function is total on strings, with `normalize_text "" = ""` for every flag
combination (whenever NFC maps the empty string to itself, as real NFC
does). -/
theorem normalize_fails_iff_none (nfc : List Char → List Char)
    (o : Option (List Char)) (rp rn : Bool) :
    ((∃ e, normalize_text_checked nfc o rp rn = Except.error e) ↔ o = none)
    ∧ (nfc [] = [] → normalize_text nfc [] rp rn = []) := by
  constructor
  · constructor
    · rintro ⟨e, he⟩
      cases o with
      | none => rfl
      | some t => exact Except.noConfusion he
    · intro ho
      subst ho
      exact ⟨InputError.typeError, rfl⟩
  · intro h0
    unfold normalize_text
    rw [h0]
    cases rp <;> cases rn <;> rfl

/-- Witness for C9 at concrete inputs. -/
theorem normalize_fails_iff_none_witness :
    nfcId [] = [] ∧ normalize_text nfcId [] true true = [] ∧
    normalize_text_checked nfcId none true true =
      Except.error InputError.typeError :=
  ⟨rfl, (normalize_fails_iff_none nfcId (some []) true true).2 rfl,
    by rcases (normalize_fails_iff_none nfcId none true true).1.mpr rfl with ⟨e, he⟩
       cases e
       exact he⟩

/-- C10: for every input and flag combination, the string returned by
`normalize_text` has no leading and no trailing whitespace. -/
theorem normalize_output_trimmed (nfc : List Char → List Char) (t : List Char)
    (rp rn : Bool) : noEdgeSpace (normalize_text nfc t rp rn) = true := by
  show noEdgeSpace (if rn then
      strip ((strip (collapseWs (specStepPunct rp (nfc t)))).filter
        (fun c => !(isDigit c)))
    else strip (collapseWs (specStepPunct rp (nfc t)))) = true
  by_cases hrn : rn = true
  · rw [if_pos hrn]
    exact noEdgeSpace_strip _
  · rw [if_neg hrn]
    exact noEdgeSpace_strip _

end OcrMetrics
